import Mathlib

/-!
Shallow embedding of the unified-diff patch engine of this repository
(the `DiffTester` engine in `src/tests/diff-application.test.ts`).

JavaScript strings are modelled as Lean `String` and operated on through
their character lists, so that every definition is executable and
kernel-reducible.  JavaScript's out-of-range array access, which yields
`undefined`, is modelled by `Option`; the one place where the engine can
call a method on such an `undefined` value (`originalLine.trim()` inside
normalized validation) is modelled as the distinguished outcome
`Except.error ()`, the analogue of an uncaught `TypeError`.
-/

namespace NexaDiff

/-- The three kinds of hunk body lines. -/
inductive DiffLineType
  | context
  | delete
  | add
deriving DecidableEq, Repr

/-- One hunk body line: its kind and its text with the one-character marker stripped. -/
structure DiffLine where
  type : DiffLineType
  content : String
deriving DecidableEq, Repr

/-- A parsed hunk record.  `oldStart`/`newStart` are zero-based: the parser
subtracts one from the one-based header values, so a header starting at 0
produces the value -1 (hence `Int`, exactly as in the JavaScript source). -/
structure Hunk where
  oldStart : Int
  oldCount : Nat
  newStart : Int
  newCount : Nat
  lines : List DiffLine
deriving DecidableEq, Repr

/-- The observable failure modes of `applyUnifiedDiff`.  The first two are the
typed errors thrown by the source; `jsTypeError` models the uncaught JavaScript
`TypeError` raised by calling `.trim()` on an `undefined` array element. -/
inductive ApplyError
  | malformedHunkHeader (line : String)
  | hunkValidationFailed (oneBasedLine : Int)
  | jsTypeError
deriving DecidableEq, Repr

/-- The two validation modes of the engine. -/
inductive ValidationMode
  | strict
  | normalized
deriving DecidableEq, Repr

/-! ### Character-level string primitives (models of the JavaScript ones) -/

/-- One pass of `replace(/\r\n/g, "\n")`: leftmost, non-overlapping. -/
def normChars : List Char → List Char
  | [] => []
  | '\r' :: '\n' :: rest => '\n' :: normChars rest
  | c :: rest => c :: normChars rest

/-- Model of `content.replace(/\r\n/g, "\n")` from the source. -/
def normalizeLineEndings (s : String) : String := ⟨normChars s.data⟩

/-- Splitting on the newline character at the character level; the empty string
yields one empty field,
as in JavaScript. -/
def splitNL : List Char → List (List Char)
  | [] => [[]]
  | c :: rest =>
    if c = '\n' then [] :: splitNL rest
    else
      match splitNL rest with
      | [] => [[c]]
      | g :: gs => (c :: g) :: gs

/-- Model of `s.split("\n")` from the source. -/
def splitLines (s : String) : List String := (splitNL s.data).map fun g => ⟨g⟩

/-- Character-level `join("\n")`. -/
def joinNLChars : List (List Char) → List Char
  | [] => []
  | [g] => g
  | g :: g2 :: gs => g ++ '\n' :: joinNLChars (g2 :: gs)

/-- Model of `result.join("\n")` from the source. -/
def joinNL (ls : List String) : String := ⟨joinNLChars (ls.map String.data)⟩

/-- The character set removed by JavaScript `String.prototype.trim`. -/
def isJsWhitespace (c : Char) : Bool :=
  c = ' ' || c = '\t' || c = '\n' || c = '\r' || c = '\x0b' || c = '\x0c' ||
  c.toNat = 0xA0 || c.toNat = 0xFEFF || c.toNat = 0x1680 ||
  (0x2000 ≤ c.toNat && c.toNat ≤ 0x200A) ||
  c.toNat = 0x2028 || c.toNat = 0x2029 || c.toNat = 0x202F ||
  c.toNat = 0x205F || c.toNat = 0x3000

/-- Drop leading JavaScript whitespace characters. -/
def dropLeadingWS : List Char → List Char
  | [] => []
  | c :: cs => if isJsWhitespace c then dropLeadingWS cs else c :: cs

/-- JavaScript `s.trim()`. -/
def jsTrim (s : String) : String :=
  ⟨(dropLeadingWS (dropLeadingWS s.data).reverse).reverse⟩

/-- Model of `line.startsWith("@@")` from the source. -/
def hasHunkMarker (line : String) : Bool :=
  match line.data with
  | '@' :: '@' :: _ => true
  | _ => false

/-! ### The hunk header regular expression

The source matches header lines against the JavaScript regular expression
`@@ -(\d+)(?:,(\d+))? \+(\d+)(?:,(\d+))? @@` (an unanchored search, first
match wins; the pattern is deterministic under greedy digit matching, so
the search below is a faithful model). -/

/-- The four capture groups of a successful header match. -/
structure HeaderMatch where
  oldStartRaw : Nat
  oldCountRaw : Option Nat
  newStartRaw : Nat
  newCountRaw : Option Nat
deriving DecidableEq, Repr

/-- Consume an exact literal from the front of the character stream. -/
def dropLit : List Char → List Char → Option (List Char)
  | [], cs => some cs
  | _ :: _, [] => none
  | p :: ps, c :: cs => if c = p then dropLit ps cs else none

/-- Greedily take the maximal digit run from the front. -/
def spanDigits : List Char → List Char × List Char
  | [] => ([], [])
  | c :: cs =>
    if c.isDigit then
      match spanDigits cs with
      | (ds, rest) => (c :: ds, rest)
    else ([], c :: cs)

/-- Decimal value of a digit run, as `parseInt` computes it on digit input. -/
def digitsToNat (ds : List Char) : Nat :=
  ds.foldl (fun a c => a * 10 + (c.toNat - 48)) 0

/-- The optional `(?:,(\d+))?` group: consumed exactly when a comma followed
by at least one digit is present. -/
def commaDigits : List Char → Option Nat × List Char
  | ',' :: c :: cs =>
    if c.isDigit then
      match spanDigits cs with
      | (ds, rest) => (some (digitsToNat (c :: ds)), rest)
    else (none, ',' :: c :: cs)
  | cs => (none, cs)

/-- Try to match the header pattern starting exactly at the front of `cs`. -/
def matchHeaderAt (cs : List Char) : Option HeaderMatch :=
  match dropLit "@@ -".data cs with
  | none => none
  | some cs1 =>
    match spanDigits cs1 with
    | ([], _) => none
    | (d1 :: ds1, cs2) =>
      match commaDigits cs2 with
      | (g2, cs3) =>
        match dropLit " +".data cs3 with
        | none => none
        | some cs4 =>
          match spanDigits cs4 with
          | ([], _) => none
          | (d3 :: ds3, cs5) =>
            match commaDigits cs5 with
            | (g4, cs6) =>
              match dropLit " @@".data cs6 with
              | none => none
              | some _ =>
                some ⟨digitsToNat (d1 :: ds1), g2, digitsToNat (d3 :: ds3), g4⟩

/-- Unanchored leftmost search for the header pattern, as `line.match` performs. -/
def searchHeader : List Char → Option HeaderMatch
  | [] => none
  | c :: cs =>
    match matchHeaderAt (c :: cs) with
    | some m => some m
    | none => searchHeader cs

/-! ### The parser -/

/-- Build the hunk record from a header match: positions become zero-based,
omitted counts default to 1, and the body starts empty. -/
def mkHunk (m : HeaderMatch) : Hunk :=
  { oldStart := (m.oldStartRaw : Int) - 1
    oldCount := m.oldCountRaw.getD 1
    newStart := (m.newStartRaw : Int) - 1
    newCount := m.newCountRaw.getD 1
    lines := [] }

/-- Classify a hunk body line by its one-character marker, stripping it. -/
def classifyLine (line : String) : Option DiffLine :=
  match line.data with
  | ' ' :: rest => some ⟨.context, ⟨rest⟩⟩
  | '-' :: rest => some ⟨.delete, ⟨rest⟩⟩
  | '+' :: rest => some ⟨.add, ⟨rest⟩⟩
  | _ => none

/-- The parser loop: `cur` is the in-progress hunk, `acc` the finished ones.
On error the carried value is the offending header line's literal text. -/
def parseGo : List String → Option Hunk → List Hunk → Except String (List Hunk)
  | [], cur, acc => .ok (acc ++ cur.toList)
  | line :: rest, cur, acc =>
    if hasHunkMarker line then
      match searchHeader line.data with
      | none => .error line
      | some m => parseGo rest (some (mkHunk m)) (acc ++ cur.toList)
    else
      match cur with
      | none => parseGo rest none acc
      | some h =>
        match classifyLine line with
        | some dl => parseGo rest (some { h with lines := h.lines ++ [dl] }) acc
        | none => parseGo rest (some h) acc

/-- Model of `parseUnifiedDiffHunks` from the source. -/
def parseUnifiedDiffHunks (diffLines : List String) : Except String (List Hunk) :=
  parseGo diffLines none []

/-! ### The validator -/

/-- JavaScript array indexing: `none` models `undefined` (negative or
out-of-range index). -/
def jsIndex (xs : List String) (i : Int) : Option String :=
  if 0 ≤ i then xs.get? i.toNat else none

/-- The validation walk of `validateHunk`.  `Except.error ()` models the
uncaught `TypeError` from `undefined.trim()` in normalized mode at a
negative cursor. -/
def validateLines (originalLines : List String) (mode : ValidationMode) :
    List DiffLine → Int → Except Unit Bool
  | [], _ => .ok true
  | dl :: rest, idx =>
    match dl.type with
    | .add => validateLines originalLines mode rest idx
    | _ =>
      if (originalLines.length : Int) ≤ idx then .ok false
      else
        match jsIndex originalLines idx with
        | some originalLine =>
          let ok : Bool := match mode with
            | .strict => originalLine == dl.content
            | .normalized => jsTrim originalLine == jsTrim dl.content
          if ok then validateLines originalLines mode rest (idx + 1) else .ok false
        | none =>
          match mode with
          | .strict => .ok false
          | .normalized => .error ()

/-- Model of `validateHunk` from the source. -/
def validateHunk (originalLines : List String) (h : Hunk) (mode : ValidationMode) :
    Except Unit Bool :=
  validateLines originalLines mode h.lines h.oldStart

/-! ### The applier -/

/-- The hunk body walk of `applyHunk`: produces the emitted lines and the final
cursor.  A context line copies `lines[cursor]` (with `undefined` joining as the
empty string, which is observationally what `Array.prototype.join` produces). -/
def processHunkLines (lines : List String) : List DiffLine → Nat → List String × Nat
  | [], idx => ([], idx)
  | dl :: rest, idx =>
    match dl.type with
    | .context =>
      (lines.getD idx "" :: (processHunkLines lines rest (idx + 1)).1,
        (processHunkLines lines rest (idx + 1)).2)
    | .delete => processHunkLines lines rest (idx + 1)
    | .add =>
      (dl.content :: (processHunkLines lines rest idx).1,
        (processHunkLines lines rest idx).2)

/-- Model of `applyHunk` from the source: copy the lines below `oldStart`, walk the hunk
body, then copy the rest from the final cursor.  The JavaScript pre-copy loop
starts its cursor at 0, so a negative `oldStart` behaves as 0 (`Int.toNat`). -/
def applyHunk (lines : List String) (h : Hunk) : List String :=
  ((List.range h.oldStart.toNat).map fun i => lines.getD i "") ++
    (processHunkLines lines h.lines h.oldStart.toNat).1 ++
    lines.drop (processHunkLines lines h.lines h.oldStart.toNat).2

/-! ### The orchestrator -/

/-- Outcome of the validation phase of `applyUnifiedDiff`. -/
inductive VOutcome
  | passed (mode : ValidationMode)
  | failed (oneBasedLine : Int)
  | crashed
deriving DecidableEq, Repr

/-- The validation loop of `applyUnifiedDiff`: one shared mutable mode,
escalated to `normalized` at the first failure and never reset; a hunk failing
in `normalized` mode aborts with the one-based line `oldStart + 1`. -/
def validateAllHunks (originalLines : List String) :
    List Hunk → ValidationMode → VOutcome
  | [], m => .passed m
  | h :: rest, m =>
    match validateHunk originalLines h m with
    | .error _ => .crashed
    | .ok true => validateAllHunks originalLines rest m
    | .ok false =>
      match validateHunk originalLines h .normalized with
      | .error _ => .crashed
      | .ok true => validateAllHunks originalLines rest .normalized
      | .ok false => .failed (h.oldStart + 1)

/-- The application loop of `applyUnifiedDiff`: hunks applied in reverse input
order, each to the line sequence left by the previous application. -/
def applyAllHunks (originalLines : List String) (hunks : List Hunk) : List String :=
  hunks.foldr (fun h acc => applyHunk acc h) originalLines

/-- Splitting of the original content: the empty string yields zero lines. -/
def splitOriginalContent (s : String) : List String :=
  if s = "" then [] else splitLines s

/-- Model of `applyUnifiedDiff` from the source: normalize, split, parse, validate
(strict with one whole-batch escalation to normalized), apply in reverse order,
rejoin with LF. -/
def applyUnifiedDiff (originalContent unifiedDiff : String) : Except ApplyError String :=
  match parseUnifiedDiffHunks (splitLines (normalizeLineEndings unifiedDiff)) with
  | .error line => .error (.malformedHunkHeader line)
  | .ok hunks =>
    match validateAllHunks (splitOriginalContent (normalizeLineEndings originalContent))
        hunks .strict with
    | .crashed => .error .jsTypeError
    | .failed n => .error (.hunkValidationFailed n)
    | .passed _ =>
      .ok (joinNL
        (applyAllHunks (splitOriginalContent (normalizeLineEndings originalContent)) hunks))

/-! ### Reference definitions used to state the claims -/

/-- Number of original lines a hunk body consumes: its context and delete
lines (add lines do not advance the cursor). -/
def consumedCount : List DiffLine → Nat
  | [] => 0
  | dl :: rest => (match dl.type with | .add => 0 | _ => 1) + consumedCount rest

/-- The contents of the add lines of a hunk body. -/
def addContents (ds : List DiffLine) : List String :=
  ds.filterMap fun dl => match dl.type with | .add => some dl.content | _ => none

/-- A hunk passes strict validation (crash counted as failure; strict
validation in fact never crashes, see `validateLines_strict_ok`). -/
def hunkPassesStrict (orig : List String) (h : Hunk) : Bool :=
  match validateHunk orig h .strict with
  | .ok b => b
  | .error _ => false

/-- A hunk passes normalized validation without crashing. -/
def hunkPassesNormalized (orig : List String) (h : Hunk) : Bool :=
  match validateHunk orig h .normalized with
  | .ok b => b
  | .error _ => false

/-- Modelled from the spec (section 4.5 step 3): re-validate every hunk in
normalized mode, aborting at the first hunk that still fails, reporting the
one-based original line `oldStart + 1`. -/
def revalidateNormalized (orig : List String) : List Hunk → VOutcome
  | [] => .passed .normalized
  | h :: rest =>
    match validateHunk orig h .normalized with
    | .error _ => .crashed
    | .ok false => .failed (h.oldStart + 1)
    | .ok true => revalidateNormalized orig rest

/-- Modelled from the spec (section 4.5 step 3), as one whole-batch
procedure: validate every hunk in strict mode; if any hunk fails, re-validate
every hunk in normalized mode instead. -/
def validateAllSpec (orig : List String) (hunks : List Hunk) : VOutcome :=
  if hunks.all (hunkPassesStrict orig) then .passed .strict
  else revalidateNormalized orig hunks

/-- Reference for C1: every hunk's edit rendered at its recorded `oldStart`
offset against the pristine original lines; `pos` is the cursor just past the
previous hunk's consumed region. -/
def applyAtRecordedOffsets (orig : List String) : Nat → List Hunk → List String
  | pos, [] => orig.drop pos
  | pos, h :: rest =>
    (orig.take h.oldStart.toNat).drop pos ++
      (processHunkLines orig h.lines h.oldStart.toNat).1 ++
      applyAtRecordedOffsets orig (h.oldStart.toNat + consumedCount h.lines) rest

/-- The hunks start no earlier than `lo`, are in non-decreasing `oldStart`
order, pairwise non-overlapping, and stay within the first `len` lines. -/
def hunksSortedDisjoint (len : Nat) : Nat → List Hunk → Bool
  | _, [] => true
  | lo, h :: rest =>
    decide ((lo : Int) ≤ h.oldStart) &&
    decide (h.oldStart.toNat + consumedCount h.lines ≤ len) &&
    hunksSortedDisjoint len (h.oldStart.toNat + consumedCount h.lines) rest

/-- Every context/delete line of the body, walked from cursor `p`, matches the
original line at its cursor up to trimming. -/
def trimMatchB (orig : List String) : Nat → List DiffLine → Bool
  | _, [] => true
  | p, dl :: rest =>
    match dl.type with
    | .add => trimMatchB orig p rest
    | _ => (jsTrim (orig.getD p "") == jsTrim dl.content) && trimMatchB orig (p + 1) rest

/-- A diff line that begins with the hunk marker but does not match the
header pattern anywhere. -/
def isBadHeaderLine (l : String) : Bool :=
  hasHunkMarker l && (searchHeader l.data).isNone

/-! ## Helper lemmas: the line split/join round trip -/

theorem splitNL_ne_nil (cs : List Char) : splitNL cs ≠ [] := by
  induction cs with
  | nil => simp [splitNL]
  | cons c rest ih =>
    rw [splitNL]
    by_cases hc : c = '\n'
    · simp [hc]
    · rw [if_neg hc]
      cases h : splitNL rest <;> simp

theorem joinNLChars_splitNL (cs : List Char) : joinNLChars (splitNL cs) = cs := by
  induction cs with
  | nil => rfl
  | cons c rest ih =>
    obtain ⟨g, gs, hg⟩ := List.exists_cons_of_ne_nil (splitNL_ne_nil rest)
    by_cases hc : c = '\n'
    · subst hc
      rw [splitNL, if_pos rfl, hg]
      show '\n' :: joinNLChars (g :: gs) = '\n' :: rest
      rw [← hg, ih]
    · rw [splitNL, if_neg hc, hg]
      cases gs with
      | nil =>
        show [c] ++ g = c :: rest
        rw [hg] at ih
        simp only [joinNLChars] at ih
        simp [ih]
      | cons g2 gs2 =>
        show (c :: g) ++ '\n' :: joinNLChars (g2 :: gs2) = c :: rest
        rw [hg] at ih
        simp only [joinNLChars] at ih
        simp [joinNLChars, ih]

theorem joinNL_splitLines (s : String) : joinNL (splitLines s) = s := by
  cases s with
  | mk data =>
    show joinNL (splitLines ⟨data⟩) = ⟨data⟩
    unfold joinNL splitLines
    rw [List.map_map]
    have hmap : ((splitNL data).map (String.data ∘ fun g => String.mk g)) = splitNL data := by
      have : (String.data ∘ fun g : List Char => String.mk g) = id := rfl
      rw [this, List.map_id]
    show String.mk (joinNLChars ((splitNL (String.mk data).data).map (String.data ∘ fun g => String.mk g))) = ⟨data⟩
    rw [show (String.mk data).data = data from rfl, hmap, joinNLChars_splitNL]

/-! ## Helper lemmas: the parser -/

theorem parseGo_nil (cur : Option Hunk) (acc : List Hunk) :
    parseGo [] cur acc = .ok (acc ++ cur.toList) := rfl

theorem parseGo_cons (line : String) (rest : List String) (cur : Option Hunk)
    (acc : List Hunk) :
    parseGo (line :: rest) cur acc =
      if hasHunkMarker line then
        match searchHeader line.data with
        | none => .error line
        | some m => parseGo rest (some (mkHunk m)) (acc ++ cur.toList)
      else
        match cur with
        | none => parseGo rest none acc
        | some h =>
          match classifyLine line with
          | some dl => parseGo rest (some { h with lines := h.lines ++ [dl] }) acc
          | none => parseGo rest (some h) acc := rfl

theorem parseGo_ignore (ds rest : List String) (acc : List Hunk)
    (h : ∀ l ∈ ds, hasHunkMarker l = false) :
    parseGo (ds ++ rest) none acc = parseGo rest none acc := by
  induction ds with
  | nil => rfl
  | cons line ds ih =>
    have hl : hasHunkMarker line = false := h line (by simp)
    rw [List.cons_append, parseGo_cons, if_neg (by simp [hl])]
    exact ih fun l hm => h l (List.mem_cons_of_mem _ hm)

theorem parse_of_no_markers (ds : List String)
    (h : ∀ l ∈ ds, hasHunkMarker l = false) :
    parseUnifiedDiffHunks ds = .ok [] := by
  have h2 := parseGo_ignore ds [] [] h
  rw [List.append_nil] at h2
  rw [parseUnifiedDiffHunks, h2, parseGo_nil]
  rfl

theorem parseGo_error_mem :
    ∀ (ds : List String) (cur : Option Hunk) (acc : List Hunk) (l : String),
    parseGo ds cur acc = .error l →
    l ∈ ds ∧ hasHunkMarker l = true ∧ searchHeader l.data = none := by
  intro ds
  induction ds with
  | nil => intro cur acc l h; rw [parseGo_nil] at h; cases h
  | cons line ds ih =>
    intro cur acc l h
    rw [parseGo_cons] at h
    by_cases hm : hasHunkMarker line = true
    · rw [if_pos (by simp [hm])] at h
      cases hs : searchHeader line.data with
      | none =>
        rw [hs] at h
        simp only [Except.error.injEq] at h
        subst h
        exact ⟨by simp, hm, hs⟩
      | some m =>
        rw [hs] at h
        obtain ⟨h1, h2, h3⟩ := ih _ _ _ h
        exact ⟨List.mem_cons_of_mem _ h1, h2, h3⟩
    · rw [if_neg (by simpa using hm)] at h
      have step : ∃ cur2 acc2, parseGo ds cur2 acc2 = .error l := by
        cases cur with
        | none => exact ⟨_, _, h⟩
        | some hk =>
          cases hcl : classifyLine line <;> rw [hcl] at h
          · exact ⟨_, _, h⟩
          · exact ⟨_, _, h⟩
      obtain ⟨cur2, acc2, h4⟩ := step
      obtain ⟨h1, h2, h3⟩ := ih _ _ _ h4
      exact ⟨List.mem_cons_of_mem _ h1, h2, h3⟩

theorem parseGo_error_exists :
    ∀ (ds : List String) (cur : Option Hunk) (acc : List Hunk),
    (∃ l ∈ ds, hasHunkMarker l = true ∧ searchHeader l.data = none) →
    ∃ l2, parseGo ds cur acc = .error l2 := by
  intro ds
  induction ds with
  | nil => intro cur acc h; simp at h
  | cons line ds ih =>
    intro cur acc h
    obtain ⟨l, hmem, hl1, hl2⟩ := h
    by_cases hm : hasHunkMarker line = true
    · cases hs : searchHeader line.data with
      | none => exact ⟨line, by rw [parseGo_cons, if_pos (by simp [hm]), hs]⟩
      | some m =>
        have hmem2 : l ∈ ds := by
          rcases List.mem_cons.mp hmem with h | h
          · subst h; rw [hl2] at hs; cases hs
          · exact h
        obtain ⟨l2, h5⟩ := ih (some (mkHunk m)) (acc ++ cur.toList) ⟨l, hmem2, hl1, hl2⟩
        exact ⟨l2, by rw [parseGo_cons, if_pos (by simp [hm]), hs]; exact h5⟩
    · have hmem2 : l ∈ ds := by
        rcases List.mem_cons.mp hmem with h | h
        · subst h; exact absurd hl1 hm
        · exact h
      rw [parseGo_cons, if_neg (by simpa using hm)]
      cases cur with
      | none => exact ih _ _ ⟨l, hmem2, hl1, hl2⟩
      | some hk =>
        cases hcl : classifyLine line
        · exact ih _ _ ⟨l, hmem2, hl1, hl2⟩
        · exact ih _ _ ⟨l, hmem2, hl1, hl2⟩

/-! ## Helper lemmas: the validator -/

theorem validateLines_nil (orig : List String) (mode : ValidationMode) (idx : Int) :
    validateLines orig mode [] idx = .ok true := rfl

theorem validateLines_add (orig : List String) (mode : ValidationMode) (c : String)
    (rest : List DiffLine) (idx : Int) :
    validateLines orig mode (⟨.add, c⟩ :: rest) idx = validateLines orig mode rest idx := rfl

theorem validateLines_delete_eq_context (orig : List String) (mode : ValidationMode)
    (c : String) (rest : List DiffLine) (idx : Int) :
    validateLines orig mode (⟨.delete, c⟩ :: rest) idx =
      validateLines orig mode (⟨.context, c⟩ :: rest) idx := rfl

theorem validateLines_context_strict (orig : List String) (c : String)
    (rest : List DiffLine) (idx : Int) :
    validateLines orig .strict (⟨.context, c⟩ :: rest) idx =
      if (orig.length : Int) ≤ idx then .ok false
      else
        match jsIndex orig idx with
        | some ol => if ol == c then validateLines orig .strict rest (idx + 1) else .ok false
        | none => .ok false := rfl

theorem validateLines_context_normalized (orig : List String) (c : String)
    (rest : List DiffLine) (idx : Int) :
    validateLines orig .normalized (⟨.context, c⟩ :: rest) idx =
      if (orig.length : Int) ≤ idx then .ok false
      else
        match jsIndex orig idx with
        | some ol =>
          if jsTrim ol == jsTrim c then validateLines orig .normalized rest (idx + 1)
          else .ok false
        | none => .error () := rfl

theorem validateLines_strict_ok (orig : List String) :
    ∀ (ds : List DiffLine) (idx : Int), ∃ b, validateLines orig .strict ds idx = .ok b := by
  intro ds
  induction ds with
  | nil => intro idx; exact ⟨true, rfl⟩
  | cons dl rest ih =>
    intro idx
    obtain ⟨t, c⟩ := dl
    have key : ∃ b, validateLines orig .strict (⟨DiffLineType.context, c⟩ :: rest) idx = .ok b := by
      rw [validateLines_context_strict]
      by_cases hb : (orig.length : Int) ≤ idx
      · exact ⟨false, by rw [if_pos hb]⟩
      · rw [if_neg hb]
        cases hj : jsIndex orig idx with
        | none => exact ⟨false, rfl⟩
        | some ol =>
          dsimp only
          by_cases hc : (ol == c) = true
          · rw [if_pos hc]; exact ih (idx + 1)
          · rw [if_neg hc]; exact ⟨false, rfl⟩
    cases t with
    | add => rw [validateLines_add]; exact ih idx
    | context => exact key
    | delete => rw [validateLines_delete_eq_context]; exact key

theorem validateLines_strict_imp_normalized (orig : List String) :
    ∀ (ds : List DiffLine) (idx : Int),
    validateLines orig .strict ds idx = .ok true →
    validateLines orig .normalized ds idx = .ok true := by
  intro ds
  induction ds with
  | nil => intro idx _; rfl
  | cons dl rest ih =>
    intro idx
    obtain ⟨t, c⟩ := dl
    have key : validateLines orig .strict (⟨DiffLineType.context, c⟩ :: rest) idx = .ok true →
        validateLines orig .normalized (⟨DiffLineType.context, c⟩ :: rest) idx = .ok true := by
      intro h
      rw [validateLines_context_strict] at h
      rw [validateLines_context_normalized]
      by_cases hb : (orig.length : Int) ≤ idx
      · rw [if_pos hb] at h; simp at h
      · rw [if_neg hb] at h
        rw [if_neg hb]
        cases hj : jsIndex orig idx with
        | none => rw [hj] at h; simp at h
        | some ol =>
          rw [hj] at h
          dsimp only at h ⊢
          by_cases hc : (ol == c) = true
          · rw [if_pos hc] at h
            have hol : ol = c := eq_of_beq hc
            subst hol
            rw [if_pos (by simp)]
            exact ih _ h
          · rw [if_neg hc] at h; simp at h
    cases t with
    | add =>
      rw [validateLines_add, validateLines_add]
      exact ih idx
    | context => exact key
    | delete =>
      rw [validateLines_delete_eq_context, validateLines_delete_eq_context]
      exact key

theorem validateHunk_strict_imp_normalized (orig : List String) (h : Hunk)
    (hs : validateHunk orig h .strict = .ok true) :
    validateHunk orig h .normalized = .ok true :=
  validateLines_strict_imp_normalized orig h.lines h.oldStart hs

theorem hunkPassesStrict_iff (orig : List String) (h : Hunk) :
    hunkPassesStrict orig h = true ↔ validateHunk orig h .strict = .ok true := by
  unfold hunkPassesStrict
  obtain ⟨b, hb⟩ := validateLines_strict_ok orig h.lines h.oldStart
  have hb2 : validateHunk orig h .strict = .ok b := hb
  rw [hb2]
  cases b <;> simp

theorem hunkPassesNormalized_iff (orig : List String) (h : Hunk) :
    hunkPassesNormalized orig h = true ↔ validateHunk orig h .normalized = .ok true := by
  unfold hunkPassesNormalized
  cases hv : validateHunk orig h .normalized with
  | error e => simp
  | ok b => cases b <;> simp

theorem validateAllHunks_normalized_eq (orig : List String) :
    ∀ hunks : List Hunk,
    validateAllHunks orig hunks .normalized = revalidateNormalized orig hunks := by
  intro hunks
  induction hunks with
  | nil => rfl
  | cons h rest ih =>
    rw [validateAllHunks, revalidateNormalized]
    cases hv : validateHunk orig h .normalized with
    | error e => rfl
    | ok b =>
      cases b with
      | true => exact ih
      | false => rfl

theorem validateAllHunks_eq_spec (orig : List String) :
    ∀ hunks : List Hunk,
    validateAllHunks orig hunks .strict = validateAllSpec orig hunks := by
  intro hunks
  induction hunks with
  | nil => rfl
  | cons h rest ih =>
    rw [validateAllHunks, validateAllSpec]
    obtain ⟨b, hb⟩ := validateLines_strict_ok orig h.lines h.oldStart
    have hbv : validateHunk orig h .strict = .ok b := hb
    rw [hbv]
    cases b with
    | true =>
      have hstrict : hunkPassesStrict orig h = true := (hunkPassesStrict_iff orig h).mpr hbv
      have hnorm : validateHunk orig h .normalized = .ok true :=
        validateHunk_strict_imp_normalized orig h hbv
      rw [List.all_cons, hstrict, Bool.true_and]
      rw [ih, validateAllSpec]
      by_cases hall : rest.all (hunkPassesStrict orig) = true
      · rw [if_pos hall, if_pos hall]
      · rw [if_neg hall, if_neg hall, revalidateNormalized, hnorm]
    | false =>
      have hstrict : hunkPassesStrict orig h = false := by
        unfold hunkPassesStrict
        rw [hbv]
      rw [List.all_cons, hstrict, Bool.false_and, if_neg (by simp)]
      rw [revalidateNormalized]
      cases hv : validateHunk orig h .normalized with
      | error e => rfl
      | ok b2 =>
        cases b2 with
        | false => rfl
        | true => exact validateAllHunks_normalized_eq orig rest

theorem revalidateNormalized_passed_iff (orig : List String) :
    ∀ hunks : List Hunk,
    (∃ m, revalidateNormalized orig hunks = .passed m) ↔
      hunks.all (hunkPassesNormalized orig) = true := by
  intro hunks
  induction hunks with
  | nil => simp [revalidateNormalized]
  | cons h rest ih =>
    rw [revalidateNormalized, List.all_cons]
    cases hv : validateHunk orig h .normalized with
    | error e =>
      constructor
      · rintro ⟨m, hm⟩; cases hm
      · intro hall
        rw [Bool.and_eq_true] at hall
        have h1 := (hunkPassesNormalized_iff orig h).mp hall.1
        rw [hv] at h1; cases h1
    | ok b =>
      cases b with
      | false =>
        constructor
        · rintro ⟨m, hm⟩; cases hm
        · intro hall
          rw [Bool.and_eq_true] at hall
          have h1 := (hunkPassesNormalized_iff orig h).mp hall.1
          rw [hv] at h1; cases h1
      | true =>
        have h1 : hunkPassesNormalized orig h = true := by
          rw [hunkPassesNormalized_iff]; exact hv
        rw [h1, Bool.true_and]
        exact ih

theorem revalidateNormalized_failed (orig : List String) :
    ∀ (hunks : List Hunk) (n : Int),
    revalidateNormalized orig hunks = .failed n →
    ∃ p h rest, hunks = p ++ h :: rest ∧
      (∀ g ∈ p, hunkPassesNormalized orig g = true) ∧
      hunkPassesNormalized orig h = false ∧ n = h.oldStart + 1 := by
  intro hunks
  induction hunks with
  | nil => intro n hn; cases hn
  | cons h rest ih =>
    intro n hn
    rw [revalidateNormalized] at hn
    cases hv : validateHunk orig h .normalized with
    | error e => rw [hv] at hn; cases hn
    | ok b =>
      cases b with
      | false =>
        rw [hv] at hn
        refine ⟨[], h, rest, by simp, by simp, ?_, ?_⟩
        · unfold hunkPassesNormalized; rw [hv]
        · cases hn; rfl
      | true =>
        rw [hv] at hn
        obtain ⟨p, h2, rest2, he, hp, hf, hn2⟩ := ih n hn
        refine ⟨h :: p, h2, rest2, by rw [he]; rfl, ?_, hf, hn2⟩
        intro g hg
        rcases List.mem_cons.mp hg with hg | hg
        · subst hg; rw [hunkPassesNormalized_iff]; exact hv
        · exact hp g hg

/-! ## Helper lemmas: the applier -/

theorem processHunkLines_context (lines : List String) (c : String)
    (rest : List DiffLine) (idx : Nat) :
    processHunkLines lines (⟨.context, c⟩ :: rest) idx =
      (lines.getD idx "" :: (processHunkLines lines rest (idx + 1)).1,
        (processHunkLines lines rest (idx + 1)).2) := rfl

theorem processHunkLines_delete (lines : List String) (c : String)
    (rest : List DiffLine) (idx : Nat) :
    processHunkLines lines (⟨.delete, c⟩ :: rest) idx =
      processHunkLines lines rest (idx + 1) := rfl

theorem processHunkLines_add (lines : List String) (c : String)
    (rest : List DiffLine) (idx : Nat) :
    processHunkLines lines (⟨.add, c⟩ :: rest) idx =
      (c :: (processHunkLines lines rest idx).1,
        (processHunkLines lines rest idx).2) := rfl

theorem consumedCount_context (c : String) (rest : List DiffLine) :
    consumedCount (⟨.context, c⟩ :: rest) = 1 + consumedCount rest := rfl

theorem consumedCount_delete (c : String) (rest : List DiffLine) :
    consumedCount (⟨.delete, c⟩ :: rest) = 1 + consumedCount rest := rfl

theorem consumedCount_add (c : String) (rest : List DiffLine) :
    consumedCount (⟨.add, c⟩ :: rest) = consumedCount rest := by
  have h : consumedCount (⟨.add, c⟩ :: rest) = 0 + consumedCount rest := rfl
  rw [h]; omega

theorem processHunkLines_snd (lines : List String) :
    ∀ (ds : List DiffLine) (idx : Nat),
    (processHunkLines lines ds idx).2 = idx + consumedCount ds := by
  intro ds
  induction ds with
  | nil => intro idx; simp [processHunkLines, consumedCount]
  | cons dl rest ih =>
    intro idx
    obtain ⟨t, c⟩ := dl
    cases t with
    | context =>
      rw [processHunkLines_context, consumedCount_context]
      show (processHunkLines lines rest (idx + 1)).2 = idx + (1 + consumedCount rest)
      rw [ih]; omega
    | delete =>
      rw [processHunkLines_delete, consumedCount_delete, ih]; omega
    | add =>
      rw [processHunkLines_add, consumedCount_add]
      show (processHunkLines lines rest idx).2 = idx + consumedCount rest
      rw [ih]

theorem processHunkLines_congr (lines lines2 : List String) :
    ∀ (ds : List DiffLine) (idx : Nat),
    (∀ i, idx ≤ i → i < idx + consumedCount ds → lines.getD i "" = lines2.getD i "") →
    processHunkLines lines ds idx = processHunkLines lines2 ds idx := by
  intro ds
  induction ds with
  | nil => intro idx _; rfl
  | cons dl rest ih =>
    intro idx hag
    obtain ⟨t, c⟩ := dl
    cases t with
    | context =>
      rw [processHunkLines_context, processHunkLines_context]
      rw [consumedCount_context] at hag
      have h0 : lines.getD idx "" = lines2.getD idx "" :=
        hag idx (le_refl idx) (by omega)
      have h1 : processHunkLines lines rest (idx + 1) = processHunkLines lines2 rest (idx + 1) :=
        ih (idx + 1) fun i hi1 hi2 => hag i (by omega) (by omega)
      rw [h0, h1]
    | delete =>
      rw [processHunkLines_delete, processHunkLines_delete]
      rw [consumedCount_delete] at hag
      exact ih (idx + 1) fun i hi1 hi2 => hag i (by omega) (by omega)
    | add =>
      rw [processHunkLines_add, processHunkLines_add]
      rw [consumedCount_add] at hag
      rw [ih idx hag]

theorem range_map_getD (l : List String) :
    ∀ s : Nat, s ≤ l.length →
    ((List.range s).map fun i => l.getD i "") = l.take s := by
  intro s
  induction s with
  | zero => intro _; simp
  | succ n ih =>
    intro hs
    have hn : n < l.length := by omega
    rw [List.range_succ, List.map_append, ih (by omega), List.take_succ]
    simp only [List.map_cons, List.map_nil]
    rw [List.getElem?_eq_getElem hn, List.getD_eq_getElem l "" hn]
    rfl

theorem applyHunk_decomp (lines : List String) (h : Hunk) (s : Nat)
    (hs : h.oldStart = (s : Int))
    (hlen : s + consumedCount h.lines ≤ lines.length) :
    applyHunk lines h =
      lines.take s ++ (processHunkLines lines h.lines s).1 ++
        lines.drop (s + consumedCount h.lines) := by
  unfold applyHunk
  rw [hs]
  rw [Int.toNat_ofNat]
  rw [range_map_getD lines s (by omega)]
  rw [processHunkLines_snd]

theorem applyAllHunks_nil (orig : List String) : applyAllHunks orig [] = orig := rfl

theorem applyAllHunks_cons (orig : List String) (h : Hunk) (rest : List Hunk) :
    applyAllHunks orig (h :: rest) = applyHunk (applyAllHunks orig rest) h := rfl

theorem hunksSortedDisjoint_nil (len lo : Nat) : hunksSortedDisjoint len lo [] = true := rfl

theorem hunksSortedDisjoint_cons (len lo : Nat) (h : Hunk) (rest : List Hunk) :
    hunksSortedDisjoint len lo (h :: rest) =
      (decide ((lo : Int) ≤ h.oldStart) &&
        decide (h.oldStart.toNat + consumedCount h.lines ≤ len) &&
        hunksSortedDisjoint len (h.oldStart.toNat + consumedCount h.lines) rest) := rfl

theorem applyAtRecordedOffsets_nil (orig : List String) (pos : Nat) :
    applyAtRecordedOffsets orig pos [] = orig.drop pos := rfl

theorem applyAtRecordedOffsets_cons (orig : List String) (pos : Nat) (h : Hunk)
    (rest : List Hunk) :
    applyAtRecordedOffsets orig pos (h :: rest) =
      (orig.take h.oldStart.toNat).drop pos ++
        (processHunkLines orig h.lines h.oldStart.toNat).1 ++
        applyAtRecordedOffsets orig (h.oldStart.toNat + consumedCount h.lines) rest := rfl

theorem getD_take_append_agree (orig : List String) (k : Nat) (suf : List String)
    (hk : k ≤ orig.length) :
    ∀ i, i < k → (orig.take k ++ suf).getD i "" = orig.getD i "" := by
  intro i hi
  have hlen : (orig.take k).length = k := by
    rw [List.length_take]; omega
  rw [List.getD_append _ _ _ _ (by omega)]
  rw [List.getD_eq_getD_get?, List.getD_eq_getD_get?, List.get?_eq_getElem?,
    List.get?_eq_getElem?, List.getElem?_take_of_lt hi]

theorem applyAllHunks_chain (orig : List String) :
    ∀ (hunks : List Hunk) (p : Nat),
    hunksSortedDisjoint orig.length p hunks = true →
    applyAllHunks orig hunks = orig.take p ++ applyAtRecordedOffsets orig p hunks := by
  intro hunks
  induction hunks with
  | nil =>
    intro p hp
    rw [applyAllHunks_nil, applyAtRecordedOffsets_nil, List.take_append_drop]
  | cons h rest ih =>
    intro p hp
    rw [hunksSortedDisjoint_cons, Bool.and_eq_true, Bool.and_eq_true,
      decide_eq_true_eq, decide_eq_true_eq] at hp
    obtain ⟨⟨hp1, hp2⟩, hp3⟩ := hp
    have h0 : 0 ≤ h.oldStart := le_trans (Int.natCast_nonneg p) hp1
    have hs : h.oldStart = ((h.oldStart.toNat : Nat) : Int) := (Int.toNat_of_nonneg h0).symm
    have hps : p ≤ h.oldStart.toNat := by omega
    have hIH := ih (h.oldStart.toNat + consumedCount h.lines) hp3
    have hL1len : (orig.take (h.oldStart.toNat + consumedCount h.lines)).length =
        h.oldStart.toNat + consumedCount h.lines := by
      rw [List.length_take]; omega
    rw [applyAllHunks_cons, hIH]
    have hdec := applyHunk_decomp
      (orig.take (h.oldStart.toNat + consumedCount h.lines) ++
        applyAtRecordedOffsets orig (h.oldStart.toNat + consumedCount h.lines) rest)
      h h.oldStart.toNat hs
      (by rw [List.length_append, hL1len]; omega)
    rw [hdec]
    have htake : (orig.take (h.oldStart.toNat + consumedCount h.lines) ++
        applyAtRecordedOffsets orig (h.oldStart.toNat + consumedCount h.lines) rest).take
          h.oldStart.toNat = orig.take h.oldStart.toNat := by
      rw [List.take_append_of_le_length (by rw [hL1len]; omega)]
      rw [List.take_take, min_eq_left (by omega : h.oldStart.toNat ≤ h.oldStart.toNat + consumedCount h.lines)]
    have hproc : processHunkLines
        (orig.take (h.oldStart.toNat + consumedCount h.lines) ++
          applyAtRecordedOffsets orig (h.oldStart.toNat + consumedCount h.lines) rest)
        h.lines h.oldStart.toNat = processHunkLines orig h.lines h.oldStart.toNat :=
      processHunkLines_congr _ orig h.lines h.oldStart.toNat fun i hi1 hi2 =>
        getD_take_append_agree orig _ _ hp2 i (by omega)
    have hdrop : (orig.take (h.oldStart.toNat + consumedCount h.lines) ++
        applyAtRecordedOffsets orig (h.oldStart.toNat + consumedCount h.lines) rest).drop
          (h.oldStart.toNat + consumedCount h.lines) =
        applyAtRecordedOffsets orig (h.oldStart.toNat + consumedCount h.lines) rest := by
      have hdl := List.drop_left
        (orig.take (h.oldStart.toNat + consumedCount h.lines))
        (applyAtRecordedOffsets orig (h.oldStart.toNat + consumedCount h.lines) rest)
      rw [hL1len] at hdl
      exact hdl
    rw [htake, hproc, hdrop]
    rw [applyAtRecordedOffsets_cons]
    have hpre : orig.take p ++ (orig.take h.oldStart.toNat).drop p =
        orig.take h.oldStart.toNat := by
      conv_rhs => rw [← List.take_append_drop p (orig.take h.oldStart.toNat)]
      rw [List.take_take, min_eq_left hps]
    conv_lhs => rw [← hpre]
    simp only [List.append_assoc]

/-! ## Helper lemmas: trim-tolerant validation and membership (for C6) -/

theorem trimMatchB_nil (orig : List String) (p : Nat) : trimMatchB orig p [] = true := rfl

theorem trimMatchB_add (orig : List String) (p : Nat) (c : String) (rest : List DiffLine) :
    trimMatchB orig p (⟨.add, c⟩ :: rest) = trimMatchB orig p rest := rfl

theorem trimMatchB_context (orig : List String) (p : Nat) (c : String) (rest : List DiffLine) :
    trimMatchB orig p (⟨.context, c⟩ :: rest) =
      ((jsTrim (orig.getD p "") == jsTrim c) && trimMatchB orig (p + 1) rest) := rfl

theorem trimMatchB_delete_eq_context (orig : List String) (p : Nat) (c : String)
    (rest : List DiffLine) :
    trimMatchB orig p (⟨.delete, c⟩ :: rest) = trimMatchB orig p (⟨.context, c⟩ :: rest) := rfl

theorem addContents_context (c : String) (rest : List DiffLine) :
    addContents (⟨.context, c⟩ :: rest) = addContents rest := rfl

theorem addContents_delete (c : String) (rest : List DiffLine) :
    addContents (⟨.delete, c⟩ :: rest) = addContents rest := rfl

theorem addContents_add (c : String) (rest : List DiffLine) :
    addContents (⟨.add, c⟩ :: rest) = c :: addContents rest := rfl

theorem jsIndex_natCast (orig : List String) (s : Nat) (hs : s < orig.length) :
    jsIndex orig (s : Int) = some (orig.getD s "") := by
  unfold jsIndex
  rw [if_pos (Int.natCast_nonneg s), Int.toNat_ofNat]
  rw [List.get?_eq_getElem?, List.getElem?_eq_getElem hs, List.getD_eq_getElem orig "" hs]

theorem validateLines_normalized_of_trimMatch (orig : List String) :
    ∀ (ds : List DiffLine) (s : Nat),
    trimMatchB orig s ds = true →
    s + consumedCount ds ≤ orig.length →
    validateLines orig .normalized ds (s : Int) = .ok true := by
  intro ds
  induction ds with
  | nil => intro s _ _; rfl
  | cons dl rest ih =>
    intro s htm hlen
    obtain ⟨t, c⟩ := dl
    have key : trimMatchB orig s (⟨DiffLineType.context, c⟩ :: rest) = true →
        s + consumedCount (⟨DiffLineType.context, c⟩ :: rest) ≤ orig.length →
        validateLines orig .normalized (⟨DiffLineType.context, c⟩ :: rest) (s : Int) = .ok true := by
      intro htm2 hlen2
      rw [trimMatchB_context, Bool.and_eq_true] at htm2
      obtain ⟨h1, h2⟩ := htm2
      rw [consumedCount_context] at hlen2
      have hslt : s < orig.length := by omega
      rw [validateLines_context_normalized]
      rw [if_neg (by omega)]
      rw [jsIndex_natCast orig s hslt]
      dsimp only
      rw [if_pos h1]
      have hcast : (s : Int) + 1 = ((s + 1 : Nat) : Int) := by omega
      rw [hcast]
      exact ih (s + 1) h2 (by omega)
    cases t with
    | add =>
      rw [trimMatchB_add] at htm
      rw [consumedCount_add] at hlen
      rw [validateLines_add]
      exact ih s htm hlen
    | context => exact key htm hlen
    | delete =>
      rw [trimMatchB_delete_eq_context] at htm
      rw [validateLines_delete_eq_context]
      exact key htm (by rw [consumedCount_context]; rw [consumedCount_delete] at hlen; omega)

theorem validateAllHunks_passes_of_normalized (orig : List String) :
    ∀ hunks : List Hunk,
    (∀ h ∈ hunks, validateHunk orig h .normalized = .ok true) →
    ∀ m, ∃ m2, validateAllHunks orig hunks m = .passed m2 := by
  intro hunks
  induction hunks with
  | nil => intro _ m; exact ⟨m, rfl⟩
  | cons h rest ih =>
    intro hall m
    have hn : validateHunk orig h .normalized = .ok true := hall h (by simp)
    have hrest : ∀ g ∈ rest, validateHunk orig g .normalized = .ok true :=
      fun g hg => hall g (List.mem_cons_of_mem _ hg)
    rw [validateAllHunks]
    cases m with
    | normalized => rw [hn]; exact ih hrest .normalized
    | strict =>
      obtain ⟨b, hb⟩ := validateLines_strict_ok orig h.lines h.oldStart
      have hbv : validateHunk orig h .strict = .ok b := hb
      rw [hbv]
      cases b with
      | true => exact ih hrest .strict
      | false => rw [hn]; exact ih hrest .normalized

theorem processHunkLines_mem (orig : List String) :
    ∀ (ds : List DiffLine) (s : Nat),
    s + consumedCount ds ≤ orig.length →
    ∀ x ∈ (processHunkLines orig ds s).1,
      (∃ i : Fin orig.length, s ≤ (i : Nat) ∧ orig.get i = x) ∨ x ∈ addContents ds := by
  intro ds
  induction ds with
  | nil => intro s _ x hx; cases hx
  | cons dl rest ih =>
    intro s hlen x hx
    obtain ⟨t, c⟩ := dl
    cases t with
    | context =>
      rw [processHunkLines_context] at hx
      rw [consumedCount_context] at hlen
      rw [addContents_context]
      rcases List.mem_cons.mp hx with hx | hx
      · have hslt : s < orig.length := by omega
        refine Or.inl ⟨⟨s, hslt⟩, le_refl s, ?_⟩
        rw [hx]
        rw [List.getD_eq_getElem orig "" hslt]
        rfl
      · rcases ih (s + 1) (by omega) x hx with ⟨i, hi, he⟩ | hr
        · exact Or.inl ⟨i, by omega, he⟩
        · exact Or.inr hr
    | delete =>
      rw [processHunkLines_delete] at hx
      rw [consumedCount_delete] at hlen
      rw [addContents_delete]
      rcases ih (s + 1) (by omega) x hx with ⟨i, hi, he⟩ | hr
      · exact Or.inl ⟨i, by omega, he⟩
      · exact Or.inr hr
    | add =>
      rw [processHunkLines_add] at hx
      rw [consumedCount_add] at hlen
      rw [addContents_add]
      rcases List.mem_cons.mp hx with hx | hx
      · exact Or.inr (by rw [hx]; exact List.mem_cons_self _ _)
      · rcases ih s hlen x hx with ⟨i, hi, he⟩ | hr
        · exact Or.inl ⟨i, hi, he⟩
        · exact Or.inr (List.mem_cons_of_mem _ hr)

/-! ## Helper lemmas: the orchestrator -/

theorem applyUnifiedDiff_no_marker (O D : String)
    (h : ∀ l ∈ splitLines (normalizeLineEndings D), hasHunkMarker l = false) :
    applyUnifiedDiff O D = .ok (normalizeLineEndings O) := by
  unfold applyUnifiedDiff
  rw [parse_of_no_markers _ h]
  show Except.ok (joinNL (applyAllHunks (splitOriginalContent (normalizeLineEndings O)) [])) =
    Except.ok (normalizeLineEndings O)
  rw [applyAllHunks_nil]
  unfold splitOriginalContent
  by_cases hO : normalizeLineEndings O = ""
  · rw [if_pos hO, hO]; rfl
  · rw [if_neg hO, joinNL_splitLines]

/-! ## The claims -/

/-- C1: for every original content and every batch of hunks that is
non-overlapping, in non-decreasing `oldStart` order and in bounds, applying
all hunks in descending `oldStart` order — the reverse-input-order loop, each
application against the line sequence left by the previous one — produces
exactly the content in which every hunk's edit appears at its recorded
`oldStart` offset of the pristine original, no matter how much the other
hunks change the line count. -/
theorem c1_reverse_order_correct (orig : List String) (hunks : List Hunk)
    (hsort : hunksSortedDisjoint orig.length 0 hunks = true) :
    applyAllHunks orig hunks = applyAtRecordedOffsets orig 0 hunks := by
  have h := applyAllHunks_chain orig hunks 0 hsort
  simpa using h

/-- Witness for C1: the repository's own two-hunk test case, whose first hunk
changes the line count before the second hunk's region. -/
theorem c1_reverse_order_correct_witness :
    hunksSortedDisjoint
      (["line1", "line2", "line3", "line4", "line5"] : List String).length 0
      [⟨0, 2, 0, 2, [⟨.delete, "line1"⟩, ⟨.add, "modified1"⟩, ⟨.context, "line2"⟩]⟩,
        ⟨3, 2, 3, 2, [⟨.context, "line4"⟩, ⟨.delete, "line5"⟩, ⟨.add, "modified5"⟩]⟩] = true ∧
    applyAllHunks ["line1", "line2", "line3", "line4", "line5"]
      [⟨0, 2, 0, 2, [⟨.delete, "line1"⟩, ⟨.add, "modified1"⟩, ⟨.context, "line2"⟩]⟩,
        ⟨3, 2, 3, 2, [⟨.context, "line4"⟩, ⟨.delete, "line5"⟩, ⟨.add, "modified5"⟩]⟩] =
      applyAtRecordedOffsets ["line1", "line2", "line3", "line4", "line5"] 0
        [⟨0, 2, 0, 2, [⟨.delete, "line1"⟩, ⟨.add, "modified1"⟩, ⟨.context, "line2"⟩]⟩,
          ⟨3, 2, 3, 2, [⟨.context, "line4"⟩, ⟨.delete, "line5"⟩, ⟨.add, "modified5"⟩]⟩] :=
  ⟨by decide, c1_reverse_order_correct _ _ (by decide)⟩

/-- C2 (code bug): the claim says apply can fail only with the two typed
errors, but the code crashes with an uncaught TypeError: a header whose
one-based old start is 0 parses to the zero-based `oldStart` -1, strict
validation of a context line then fails without crashing, and the whole-batch
normalized retry calls `trim()` on the `undefined` array element at index -1. -/
theorem c2_typeerror_escape :
    applyUnifiedDiff "x" "@@ -0,0 +0,0 @@\n x" = .error .jsTypeError := rfl

/-- C3 counterexample: a diff whose single hunk only adds a line applies a
second time successfully (returning ok, not HunkValidationFailed), refuting
the claim that re-applying an already-applied diff always fails. -/
theorem c3_counterexample :
    applyUnifiedDiff "a" "@@ -1,1 +1,2 @@\n a\n+a" = .ok "a\na" ∧
    applyUnifiedDiff "a\na" "@@ -1,1 +1,2 @@\n a\n+a" = .ok "a\na\na" :=
  ⟨rfl, rfl⟩

/-- C3 amended: re-applying an already-applied diff fails with
HunkValidationFailed when the first application changed the text at some
hunk's context/delete offset beyond what trimming reconciles — as for the
replacement hunk of the spec's scenario A — but not for every diff. -/
theorem c3_amended_reapply :
    applyUnifiedDiff "line1\nline2\nline3"
        "@@ -1,3 +1,3 @@\n line1\n-line2\n+modified\n line3" =
      .ok "line1\nmodified\nline3" ∧
    applyUnifiedDiff "line1\nmodified\nline3"
        "@@ -1,3 +1,3 @@\n line1\n-line2\n+modified\n line3" =
      .error (.hunkValidationFailed 1) :=
  ⟨rfl, rfl⟩

/-- C4: the in-loop mode escalation of the code (switch the shared mode to
normalized at the first strict failure, never re-validating earlier hunks) is
equivalent to the spec's re-validate-every-hunk procedure; the batch succeeds
iff every hunk passes strict validation or every hunk passes normalized
validation, and a failure reports `oldStart + 1` of the first hunk failing
normalized validation. -/
theorem c4_validation_refinement (orig : List String) (hunks : List Hunk) :
    validateAllHunks orig hunks .strict = validateAllSpec orig hunks ∧
    ((∃ m, validateAllHunks orig hunks .strict = .passed m) ↔
      (hunks.all (hunkPassesStrict orig) = true ∨
        hunks.all (hunkPassesNormalized orig) = true)) ∧
    (∀ n, validateAllHunks orig hunks .strict = .failed n →
      ∃ p h rest, hunks = p ++ h :: rest ∧
        (∀ g ∈ p, hunkPassesNormalized orig g = true) ∧
        hunkPassesNormalized orig h = false ∧ n = h.oldStart + 1) := by
  refine ⟨validateAllHunks_eq_spec orig hunks, ?_, ?_⟩
  · rw [validateAllHunks_eq_spec]
    unfold validateAllSpec
    by_cases hall : hunks.all (hunkPassesStrict orig) = true
    · rw [if_pos hall]
      exact ⟨fun _ => Or.inl hall, fun _ => ⟨.strict, rfl⟩⟩
    · rw [if_neg hall]
      rw [revalidateNormalized_passed_iff]
      constructor
      · exact fun hn => Or.inr hn
      · rintro (hc | hc)
        · exact absurd hc hall
        · exact hc
  · intro n hf
    rw [validateAllHunks_eq_spec] at hf
    unfold validateAllSpec at hf
    by_cases hall : hunks.all (hunkPassesStrict orig) = true
    · rw [if_pos hall] at hf; cases hf
    · rw [if_neg hall] at hf
      exact revalidateNormalized_failed orig hunks n hf

/-- Witness for C4: a batch that fails validation; both the code loop and the
spec procedure report the failing hunk's one-based line 1. -/
theorem c4_validation_refinement_witness :
    validateAllHunks ["a"] [⟨0, 1, 0, 1, [⟨.delete, "zz"⟩]⟩] .strict = .failed 1 ∧
    validateAllSpec ["a"] [⟨0, 1, 0, 1, [⟨.delete, "zz"⟩]⟩] = .failed 1 :=
  ⟨rfl, (c4_validation_refinement ["a"] [⟨0, 1, 0, 1, [⟨.delete, "zz"⟩]⟩]).1.symm.trans rfl⟩

/-- C5: inputs that agree after CRLF-to-LF normalization — in particular an
input with any of its line endings written as CRLF and its LF-only
equivalent — produce exactly the same outcome, same content on success and
same error on failure. -/
theorem c5_crlf_invariance (O O2 D D2 : String)
    (hO : normalizeLineEndings O2 = normalizeLineEndings O)
    (hD : normalizeLineEndings D2 = normalizeLineEndings D) :
    applyUnifiedDiff O2 D2 = applyUnifiedDiff O D := by
  unfold applyUnifiedDiff
  rw [hO, hD]

/-- Witness for C5: a CRLF original and a CRLF diff give the same outcome as
their LF-only equivalents. -/
theorem c5_crlf_invariance_witness :
    normalizeLineEndings "a\r\nb" = normalizeLineEndings "a\nb" ∧
    normalizeLineEndings "@@ -1,2 +1,2 @@\r\n a\r\n-b\r\n+c" =
      normalizeLineEndings "@@ -1,2 +1,2 @@\n a\n-b\n+c" ∧
    applyUnifiedDiff "a\r\nb" "@@ -1,2 +1,2 @@\r\n a\r\n-b\r\n+c" =
      applyUnifiedDiff "a\nb" "@@ -1,2 +1,2 @@\n a\n-b\n+c" :=
  ⟨rfl, rfl, c5_crlf_invariance _ _ _ _ rfl rfl⟩

/-- C6: when every context/delete line of every hunk matches the original at
its cursor up to leading/trailing whitespace, the whole batch validates (via
the normalized fallback), and the applied output around each hunk consists of
the original's own exact untrimmed lines (`processHunkLines` copies
`orig.getD` at the cursor) — every produced line is an original line or an
add line's content, never the hunk's trimmed context text. -/
theorem c6_whitespace_tolerant (orig : List String) (hunks : List Hunk)
    (hmatch : ∀ h ∈ hunks, 0 ≤ h.oldStart ∧
      h.oldStart.toNat + consumedCount h.lines ≤ orig.length ∧
      trimMatchB orig h.oldStart.toNat h.lines = true) :
    (∃ m, validateAllHunks orig hunks .strict = .passed m) ∧
    ∀ h ∈ hunks,
      applyHunk orig h =
        orig.take h.oldStart.toNat ++
          (processHunkLines orig h.lines h.oldStart.toNat).1 ++
          orig.drop (h.oldStart.toNat + consumedCount h.lines) ∧
      ∀ x ∈ (processHunkLines orig h.lines h.oldStart.toNat).1,
        (∃ i : Fin orig.length, orig.get i = x) ∨ x ∈ addContents h.lines := by
  constructor
  · have hnorm : ∀ h ∈ hunks, validateHunk orig h .normalized = .ok true := by
      intro h hh
      obtain ⟨h0, hlen, htm⟩ := hmatch h hh
      have hs : h.oldStart = (h.oldStart.toNat : Int) := (Int.toNat_of_nonneg h0).symm
      unfold validateHunk
      rw [hs]
      exact validateLines_normalized_of_trimMatch orig h.lines h.oldStart.toNat htm hlen
    obtain ⟨m2, hm⟩ := validateAllHunks_passes_of_normalized orig hunks hnorm .strict
    exact ⟨m2, hm⟩
  · intro h hh
    obtain ⟨h0, hlen, htm⟩ := hmatch h hh
    have hs : h.oldStart = (h.oldStart.toNat : Int) := (Int.toNat_of_nonneg h0).symm
    refine ⟨applyHunk_decomp orig h h.oldStart.toNat hs hlen, ?_⟩
    intro x hx
    rcases processHunkLines_mem orig h.lines h.oldStart.toNat hlen x hx with ⟨i, _, he⟩ | hr
    · exact Or.inl ⟨i, he⟩
    · exact Or.inr hr

/-- Witness for C6: a context line `a` against the original line `  a  `
(differing only by surrounding whitespace). -/
theorem c6_whitespace_tolerant_witness :
    (∃ m, validateAllHunks ["  a  "]
        [⟨0, 1, 0, 1, [⟨.context, "a"⟩]⟩] .strict = .passed m) ∧
    ∀ h ∈ ([⟨0, 1, 0, 1, [⟨.context, "a"⟩]⟩] : List Hunk),
      applyHunk ["  a  "] h =
        (["  a  "] : List String).take h.oldStart.toNat ++
          (processHunkLines ["  a  "] h.lines h.oldStart.toNat).1 ++
          (["  a  "] : List String).drop (h.oldStart.toNat + consumedCount h.lines) ∧
      ∀ x ∈ (processHunkLines ["  a  "] h.lines h.oldStart.toNat).1,
        (∃ i : Fin (["  a  "] : List String).length, (["  a  "] : List String).get i = x) ∨
          x ∈ addContents h.lines :=
  c6_whitespace_tolerant _ _ (by decide)

/-- C7: a diff text none of whose lines begins with the hunk marker parses to
zero hunks, and applying it succeeds, returning the original content unchanged
up to CRLF normalization and LF rejoin. -/
theorem c7_zero_hunks_identity (O D : String)
    (h : ∀ l ∈ splitLines (normalizeLineEndings D), hasHunkMarker l = false) :
    applyUnifiedDiff O D = .ok (normalizeLineEndings O) :=
  applyUnifiedDiff_no_marker O D h

/-- Witness for C7: a marker-free diff text leaves a CRLF original as its
LF-normalized self. -/
theorem c7_zero_hunks_identity_witness :
    (∀ l ∈ splitLines (normalizeLineEndings "hello\n world"), hasHunkMarker l = false) ∧
    applyUnifiedDiff "a\r\nb" "hello\n world" = .ok "a\nb" :=
  ⟨by decide, (c7_zero_hunks_identity "a\r\nb" "hello\n world" (by decide)).trans rfl⟩

/-- C8: applying to the empty original a hunk `@@ -0,0 +1,3 @@` with three add
lines yields exactly those three lines joined by LF; the symmetric full-delete
hunk yields the empty string; and the empty original splits into zero lines. -/
theorem c8_empty_content_edges :
    applyUnifiedDiff "" "@@ -0,0 +1,3 @@\n+line1\n+line2\n+line3" =
      .ok "line1\nline2\nline3" ∧
    applyUnifiedDiff "line1\nline2\nline3" "@@ -1,3 +0,0 @@\n-line1\n-line2\n-line3" =
      .ok "" ∧
    splitOriginalContent "" = [] :=
  ⟨rfl, rfl, rfl⟩

/-- C9: parsing fails, carrying the offending line's literal text, exactly
when some diff line begins with the two-character hunk marker but does not
match the header pattern anywhere in the line; any parse failure makes the
whole apply return MalformedHunkHeader with that text, nothing applied; and a
header with omitted counts defaults both counts to 1. -/
theorem c9_malformed_header (ds : List String) (O D : String) :
    ((∃ l, parseUnifiedDiffHunks ds = .error l) ↔ ∃ l ∈ ds, isBadHeaderLine l = true) ∧
    (∀ l, parseUnifiedDiffHunks ds = .error l → l ∈ ds ∧ isBadHeaderLine l = true) ∧
    (∀ l, parseUnifiedDiffHunks (splitLines (normalizeLineEndings D)) = .error l →
      applyUnifiedDiff O D = .error (.malformedHunkHeader l)) ∧
    (∀ m : HeaderMatch, m.oldCountRaw = none → (mkHunk m).oldCount = 1) ∧
    (∀ m : HeaderMatch, m.newCountRaw = none → (mkHunk m).newCount = 1) := by
  refine ⟨⟨?_, ?_⟩, ?_, ?_, ?_, ?_⟩
  · rintro ⟨l, hl⟩
    obtain ⟨h1, h2, h3⟩ := parseGo_error_mem ds none [] l hl
    exact ⟨l, h1, by unfold isBadHeaderLine; rw [h2, h3]; rfl⟩
  · rintro ⟨l, hmem, hbad⟩
    unfold isBadHeaderLine at hbad
    rw [Bool.and_eq_true] at hbad
    obtain ⟨hb1, hb2⟩ := hbad
    have hb3 : searchHeader l.data = none := by
      cases hs : searchHeader l.data with
      | none => rfl
      | some m => rw [hs] at hb2; cases hb2
    exact parseGo_error_exists ds none [] ⟨l, hmem, hb1, hb3⟩
  · intro l hl
    obtain ⟨h1, h2, h3⟩ := parseGo_error_mem ds none [] l hl
    exact ⟨h1, by unfold isBadHeaderLine; rw [h2, h3]; rfl⟩
  · intro l hl
    unfold applyUnifiedDiff
    rw [hl]
  · intro m hm
    unfold mkHunk
    rw [hm]
    rfl
  · intro m hm
    unfold mkHunk
    rw [hm]
    rfl

/-- Witness for C9: the spec's scenario C header is rejected with its literal
text. -/
theorem c9_malformed_header_witness :
    applyUnifiedDiff "x" "@@ bad @@\n-x\n+y" =
      .error (.malformedHunkHeader "@@ bad @@") :=
  (c9_malformed_header [] "x" "@@ bad @@\n-x\n+y").2.2.1 "@@ bad @@" rfl

/-- C10: diff body lines appearing before any hunk header are silently
ignored — parsing a list with a marker-free prefix equals parsing the rest —
so a diff text without any marker line parses to zero hunks and applying it is
a no-op up to normalization and rejoin. -/
theorem c10_pre_header_lines_ignored (pre rest : List String) (O D : String)
    (hpre : ∀ l ∈ pre, hasHunkMarker l = false)
    (hD : ∀ l ∈ splitLines (normalizeLineEndings D), hasHunkMarker l = false) :
    parseUnifiedDiffHunks (pre ++ rest) = parseUnifiedDiffHunks rest ∧
    parseUnifiedDiffHunks (splitLines (normalizeLineEndings D)) = .ok [] ∧
    applyUnifiedDiff O D = .ok (normalizeLineEndings O) :=
  ⟨parseGo_ignore pre rest [] hpre, parse_of_no_markers _ hD,
    applyUnifiedDiff_no_marker O D hD⟩

/-- Witness for C10: body-marker lines with no header are ignored and act as a
no-op patch. -/
theorem c10_pre_header_lines_ignored_witness :
    parseUnifiedDiffHunks (["-line1", "+line2", " line3"] ++ []) =
      parseUnifiedDiffHunks [] ∧
    parseUnifiedDiffHunks
      (splitLines (normalizeLineEndings "-line1\n+line2\n line3")) = .ok [] ∧
    applyUnifiedDiff "a" "-line1\n+line2\n line3" = .ok "a" :=
  c10_pre_header_lines_ignored ["-line1", "+line2", " line3"] [] "a"
    "-line1\n+line2\n line3" (by decide) (by decide)

end NexaDiff